import Mathlib

/-
Verification of the Centipede feature/corpus engine against its
natural-language specification.

Shallow embedding conventions:
* machine integers are modelled as `Nat` (no overflow is exercised by the
  properties below: knob values are bytes, frequencies saturate at a
  threshold that fits in 8 bits, and all sums stay far below 2^64);
* fatal programming errors (`CHECK` failures, `__builtin_trap`,
  `__builtin_unreachable`) are modelled by `Option`: `none` means the
  process aborts;
* the components whose C++ implementation files are not part of the
  source snapshot (FeatureSet, Corpus, WeightedDistribution,
  CoverageFrontier internals) are modelled from the specification text;
  each such definition carries a doc comment starting with
  `Modelled from the spec:`.  Definitions for code that is present
  (knobs.h, centipede.cc) are direct translations of the source.
-/

namespace Centipede

/-- A feature is a 64-bit opaque identifier, modelled as a natural number. -/
abbrev Feature := Nat

/-- FeatureVec: an ordered sequence of features, mutated in place by pruning. -/
abbrev FeatureVec := List Feature

/-- An input fed to the target, a sequence of bytes. -/
abbrev Input := List Nat

/-- Modelled from the spec: feature.h is absent from src/.  Features are
partitioned into domains by disjoint numeric ranges of a fixed size; the
domain of a feature is the index of the range it falls into. -/
def kDomainSize : Nat := 2 ^ 40

/-- Modelled from the spec: feature.h is absent from src/.  Domain id of a
feature (its range index). -/
def domainOf (f : Feature) : Nat := f / kDomainSize

/-- Modelled from the spec: feature_set.h is absent from src/.  FeatureSet
state: the frequency threshold chosen at construction, a dense mapping
`feature -> frequency` saturating at the threshold, and a per-domain count
of distinct features observed. -/
structure FeatureSet where
  frequency_threshold : Nat
  freq : Feature → Nat
  domainCount : Nat → Nat

/-- Modelled from the spec: a freshly constructed FeatureSet has seen no
feature in any domain. -/
def FeatureSet.init (threshold : Nat) : FeatureSet :=
  ⟨threshold, fun _ => 0, fun _ => 0⟩

/-- Modelled from the spec: feature_set.h is absent from src/.
`CountUnseenAndPruneFrequentFeatures` returns the number of features of the
vector not yet present in the set and, in place, removes from the vector
every feature whose recorded frequency has reached the threshold, keeping
the order of the remaining elements. -/
def FeatureSet.countUnseenAndPruneFrequentFeatures (fs : FeatureSet) (v : FeatureVec) :
    Nat × FeatureVec :=
  ((v.filter fun f => fs.freq f = 0).length,
   v.filter fun f => fs.freq f < fs.frequency_threshold)

/-- Modelled from the spec: feature_set.h is absent from src/.  One step of
`IncrementFrequencies`: bump the saturating counter of one feature and, when
the feature was previously unseen, the distinct-feature count of its domain. -/
def FeatureSet.inc1 (fs : FeatureSet) (f : Feature) : FeatureSet :=
  { fs with
    freq := fun g =>
      if g = f then min (fs.freq f + 1) fs.frequency_threshold else fs.freq g
    domainCount := fun d =>
      if fs.freq f = 0 ∧ d = domainOf f then fs.domainCount d + 1 else fs.domainCount d }

/-- Modelled from the spec: `IncrementFrequencies` processes each feature of
the vector in order. -/
def FeatureSet.incrementFrequencies (fs : FeatureSet) (v : FeatureVec) : FeatureSet :=
  v.foldl FeatureSet.inc1 fs

/-- A sequence of `IncrementFrequencies` calls, applied in order.  Used to
state properties over whole histories of increments. -/
def FeatureSet.incrementFrequenciesAll (fs : FeatureSet) (vs : List FeatureVec) : FeatureSet :=
  vs.foldl FeatureSet.incrementFrequencies fs

/-- Modelled from the spec: `count_features(domain)` is the per-domain count
of distinct features observed. -/
def FeatureSet.countFeatures (fs : FeatureSet) (d : Nat) : Nat := fs.domainCount d

/-- Modelled from the spec: feature_set.h is absent from src/.  The domain
scale is inversely monotone in the domain's distinct-feature count. -/
def FeatureSet.domainScale (fs : FeatureSet) (d : Nat) : ℚ :=
  1 / (fs.domainCount d + 1 : ℚ)

/-- Modelled from the spec: feature_set.h is absent from src/.  Rarity is
strictly decreasing in the recorded frequency (frequencies are positive for
seen features; an unseen feature would be a fatal error in the source and
contributes nothing here). -/
def rarity (frequency : Nat) : ℚ := 1 / (frequency : ℚ)

/-- Modelled from the spec: feature_set.h is absent from src/.
`ComputeWeight` sums, over the features of the vector, the product of the
domain scale of the feature's domain and the rarity of its frequency. -/
def FeatureSet.computeWeight (fs : FeatureSet) (v : FeatureVec) : ℚ :=
  (v.map fun f => fs.domainScale (domainOf f) * rarity (fs.freq f)).sum

/-- Modelled from the spec: coverage.h is absent from src/.  CoverageFrontier
state after `Compute`: for each PC index of the PC table a boolean
"is frontier" and an integer weight. -/
structure CoverageFrontier where
  pcTableSize : Nat
  frontier : List Bool
  frontierWeights : List Nat

/-- Modelled from the spec: coverage.h is absent from src/.  `FrontierWeight`
checks the PC index against the PC table size; an out-of-range index is a
fatal programming error (`none`). -/
def CoverageFrontier.frontierWeight (cf : CoverageFrontier) (i : Nat) : Option Nat :=
  if i < cf.pcTableSize then some (cf.frontierWeights.getD i 0) else none

/-- Modelled from the spec: coverage.h is absent from src/.
`PcIndexIsFrontier` performs no bounds check: the unit test in src/ disables
its out-of-range death test with a TODO saying the `CHECK` is not yet used
there, so the call returns a value instead of aborting. -/
def CoverageFrontier.pcIndexIsFrontier (cf : CoverageFrontier) (i : Nat) : Bool :=
  cf.frontier.getD i false

/-- A frontier over `n` PCs in which nothing is a frontier, as produced by
`Compute` over a corpus with no counter features. -/
def CoverageFrontier.trivialFrontier (n : Nat) : CoverageFrontier :=
  ⟨n, List.replicate n false, List.replicate n 0⟩

/-- Modelled from the spec: a counter-domain feature encodes a
(PC index, bucketed counter value) pair; the counter domain is the first
range and each PC index owns 8 consecutive feature slots. -/
def pcIndexOfCounterFeature (f : Feature) : Nat := f / 8

/-- Modelled from the spec: corpus.h is absent from src/.  The frontier
bonus added to a record's weight: the sum of the frontier weights of the
frontier PCs among the input's counter-domain features.  For a frontier with
no frontier PCs the bonus is zero. -/
def CoverageFrontier.frontierBonus (cf : CoverageFrontier) (v : FeatureVec) : ℚ :=
  (v.map fun f =>
    if domainOf f = 0 ∧ cf.pcIndexIsFrontier (pcIndexOfCounterFeature f) then
      ((cf.frontierWeight (pcIndexOfCounterFeature f)).getD 0 : ℚ)
    else 0).sum

/-- CorpusRecord: the input bytes, its feature vector and the optional
cmp-args blob passed to the mutator. -/
structure CorpusRecord where
  data : Input
  features : FeatureVec
  cmp_args : List Nat
deriving DecidableEq, Inhabited

/-- Modelled from the spec: corpus.h is absent from src/.  Corpus state: the
ordered list of active records, the weight of each active record, and the
monotonically increasing total counter (including pruned-out records). -/
structure Corpus where
  records : List CorpusRecord
  weights : List ℚ
  num_total : Nat
deriving DecidableEq

/-- A freshly constructed, empty corpus. -/
def Corpus.empty : Corpus := ⟨[], [], 0⟩

/-- Modelled from the spec: a record's weight is
`feature_set.compute_weight(features) + frontier_bonus(features, frontier)`. -/
def recordWeight (fs : FeatureSet) (cf : CoverageFrontier) (r : CorpusRecord) : ℚ :=
  fs.computeWeight r.features + cf.frontierBonus r.features

/-- Modelled from the spec: corpus.h is absent from src/.  `Add` appends an
active record, extends the weights accordingly and bumps `num_total`. -/
def Corpus.add (c : Corpus) (data : Input) (features : FeatureVec) (cmpArgs : List Nat)
    (fs : FeatureSet) (cf : CoverageFrontier) : Corpus :=
  { records := c.records ++ [⟨data, features, cmpArgs⟩]
    weights := c.weights ++ [recordWeight fs cf ⟨data, features, cmpArgs⟩]
    num_total := c.num_total + 1 }

/-- Number of active corpus records. -/
def Corpus.numActive (c : Corpus) : Nat := c.records.length

/-- A record is removed by frequency pruning when every one of its features
has reached the frequency threshold. -/
def recordAllFrequent (fs : FeatureSet) (r : CorpusRecord) : Bool :=
  r.features.all fun f => fs.frequency_threshold ≤ fs.freq f

/-- Swap-remove: drop the entry at index `i` by overwriting it with the last
entry and popping the back. -/
def swapRemove {α : Type} (l : List α) (i : Nat) : List α :=
  match l.getLast? with
  | none => []
  | some x => (l.set i x).dropLast

/-- Modelled from the spec: corpus.h is absent from src/.  Cap enforcement of
`Prune`, step 4: while the number of survivors exceeds the bound, pick a
uniformly-random index of positive weight and swap-remove it.  The fuel
argument bounds the recursion by the number of survivors. -/
def capRemoveAux (rng : Nat → Nat) (maxSize : Nat) :
    Nat → Nat → List (CorpusRecord × ℚ) → List (CorpusRecord × ℚ)
  | 0, _, l => l
  | fuel + 1, step, l =>
    if l.length ≤ maxSize then l
    else
      let candidates := (List.range l.length).filter fun i => 0 < (l.getD i default).2
      let idx := candidates.getD (rng step % candidates.length) 0
      capRemoveAux rng maxSize fuel (step + 1) (swapRemove l idx)

/-- Modelled from the spec: corpus.h is absent from src/.  `Prune` fails
fatally when `max_corpus_size == 0`; otherwise it keeps, in order, the
records having at least one infrequent feature, recomputes their weights,
enforces the size cap by random swap-removal, and returns the new corpus
together with the total number of records removed.  `num_total` is
unchanged. -/
def Corpus.prune (c : Corpus) (fs : FeatureSet) (cf : CoverageFrontier)
    (maxCorpusSize : Nat) (rng : Nat → Nat) : Option (Corpus × Nat) :=
  if maxCorpusSize = 0 then none
  else
    let survivors := c.records.filter fun r => !(recordAllFrequent fs r)
    let pairs := survivors.map fun r => (r, recordWeight fs cf r)
    let final := capRemoveAux rng maxCorpusSize pairs.length 0 pairs
    some ({ records := final.map Prod.fst
            weights := final.map Prod.snd
            num_total := c.num_total },
          c.records.length - final.length)

/-- From Centipede::FuzzingLoop (centipede.cc): if the corpus is still empty
after shard loading and merging, add the dummy valid input with an empty
feature vector. -/
def addDummyIfCorpusEmpty (c : Corpus) (dummy : Input) (fs : FeatureSet)
    (cf : CoverageFrontier) : Corpus :=
  if c.num_total = 0 then c.add dummy [] [] fs cf else c

/-- The corpus-mutating operations performed by the fuzzing loop between two
sampling points: adding a record and pruning. -/
inductive CorpusOp where
  | add (data : Input) (features : FeatureVec) (cmpArgs : List Nat)
      (fs : FeatureSet) (cf : CoverageFrontier)
  | prune (fs : FeatureSet) (cf : CoverageFrontier) (maxSize : Nat) (rng : Nat → Nat)

/-- Apply one corpus operation.  A fatal `Prune` (max size zero) aborts the
process; the corpus state at that point is kept unchanged. -/
def Corpus.applyOp (c : Corpus) : CorpusOp → Corpus
  | .add d f a fs cf => c.add d f a fs cf
  | .prune fs cf m rng =>
    match c.prune fs cf m rng with
    | some (c2, _) => c2
    | none => c

/-- Apply a sequence of corpus operations in order. -/
def Corpus.applyOps (c : Corpus) (ops : List CorpusOp) : Corpus :=
  ops.foldl Corpus.applyOp c

/-- Modelled from the spec: corpus.h is absent from src/.
WeightedDistribution state: the weights, the cumulative prefix sums, and a
flag recording whether the prefix sums are consistent with the weights. -/
structure WeightedDistribution where
  weights : List Nat
  cumulative : List Nat
  valid : Bool

/-- An empty distribution, as after `clear`. -/
def WeightedDistribution.clear : WeightedDistribution := ⟨[], [], true⟩

/-- Modelled from the spec: `add_weight` appends a weight and extends the
prefix sums. -/
def WeightedDistribution.addWeight (wd : WeightedDistribution) (w : Nat) :
    WeightedDistribution :=
  ⟨wd.weights ++ [w], wd.cumulative ++ [wd.cumulative.getLastD 0 + w], wd.valid⟩

/-- Modelled from the spec: `change_weight` overwrites one weight and leaves
the prefix sums stale; sampling before `recompute_internal_state` is a fatal
programming error. -/
def WeightedDistribution.changeWeight (wd : WeightedDistribution) (i w : Nat) :
    WeightedDistribution :=
  ⟨wd.weights.set i w, wd.cumulative, false⟩

/-- Prefix sums of a list of weights: entry `i` is the sum of the first
`i + 1` weights. -/
def prefixSums : List Nat → List Nat
  | [] => []
  | w :: ws => w :: (prefixSums ws).map (w + ·)

/-- Modelled from the spec: `recompute_internal_state` rebuilds the prefix
sums from the weights and makes sampling well defined again. -/
def WeightedDistribution.recomputeInternalState (wd : WeightedDistribution) :
    WeightedDistribution :=
  ⟨wd.weights, prefixSums wd.weights, true⟩

/-- Index of the first entry of the list strictly greater than `x`, the
binary-search step of `random_index`. -/
def upperBound : List Nat → Nat → Option Nat
  | [], _ => none
  | c :: cs, x => if x < c then some 0 else (upperBound cs x).map (· + 1)

/-- Modelled from the spec: corpus.h is absent from src/.  `random_index`
fails fast when the prefix sums are stale (fatal programming error) or when
all weights are zero (undefined, implementers may fail fast); otherwise it
picks the index by searching the prefix sums with `r mod total`. -/
def WeightedDistribution.randomIndex (wd : WeightedDistribution) (r : Nat) : Option Nat :=
  if wd.valid = false then none
  else
    let total := wd.cumulative.getLastD 0
    if total = 0 then none
    else upperBound wd.cumulative (r % total)

/-- Modelled from the spec: `pop_back` removes the last entry of both lists. -/
def WeightedDistribution.popBack (wd : WeightedDistribution) : WeightedDistribution :=
  ⟨wd.weights.dropLast, wd.cumulative.dropLast, wd.valid⟩

/-- Number of entries of the distribution. -/
def WeightedDistribution.size (wd : WeightedDistribution) : Nat := wd.weights.length

/-- From knobs.h: total number of knobs. -/
abbrev kNumKnobs : Nat := 32

/-- From knobs.h: number of possible values of the 8-bit knob value type. -/
def kNumPossibleValues : Nat := 256

/-- A KnobId: ids are allocated by `Knobs::NewId`, which traps before ever
returning an id outside `[0, kNumKnobs)`, so a live id is an index below
`kNumKnobs`. -/
abbrev KnobId := Fin kNumKnobs

/-- From knobs.h: Knobs is a fixed-size array of byte values indexed by
KnobIds. -/
structure Knobs where
  knobs : KnobId → Nat

/-- From knobs.h: `Value(knob_id)` reads the byte associated with the id. -/
def Knobs.value (k : Knobs) (id : KnobId) : Nat := k.knobs id

/-- From knobs.h, Knobs::Choose: the scan over the knob values.  It keeps a
running partial sum and returns the current choice as soon as the partial
sum exceeds `r`; falling off the end is `__builtin_unreachable` (`none`). -/
def chooseScan {T : Type} : List Nat → List T → Nat → Nat → Option T
  | v :: vs, c :: cs, r, acc =>
    if r < acc + v then some c else chooseScan vs cs r (acc + v)
  | _, _, _, _ => none

/-- From knobs.h, Knobs::Choose: traps (`none`) on an empty or length-
mismatched argument pair; with a zero weight sum falls back to uniform
selection; otherwise scans the prefix sums of the knob values with
`random mod sum`. -/
def Knobs.choose {T : Type} (k : Knobs) (knobIds : List KnobId) (choices : List T)
    (random : Nat) : Option T :=
  if choices.isEmpty then none
  else if knobIds.length ≠ choices.length then none
  else
    let values := knobIds.map k.value
    if values.sum = 0 then choices.get? (random % choices.length)
    else chooseScan values choices (random % values.sum) 0

/-- From knobs.h, Knobs::GenerateBool, expressed over the knob's byte value:
0 and 255 give the default, 1 gives false, 254 gives true, and a value in
[2, 253] gives true exactly when `random mod 252` is at most `value - 2`. -/
def generateBool (value : Nat) (defaultValue : Bool) (random : Nat) : Bool :=
  if value = 0 ∨ value = 255 then defaultValue
  else if value = 1 then false
  else if value = 254 then true
  else decide (random % (kNumPossibleValues - 4) ≤ value - 2)

/-- From Centipede::FuzzingLoop (centipede.cc): the shard index picked for
the periodic cross-shard load, where `rand` is the raw value drawn from the
RNG. -/
def chooseOtherShardIndex (myShardIndex totalShards rand : Nat) : Nat :=
  (myShardIndex + 1 + rand % (totalShards - 1)) % totalShards

/-- From Centipede::ReportCrash (centipede.cc).  `crashes i` tells whether
re-executing the single input `i` fails; `hash` is the input-hash used to
name the reproducer file.  The result is the file written under the crash
directory: `some (hash i, i)` means the bytes of `i` are dumped to
`<crash_dir>/<hash i>`; `none` means no reproducer is persisted (either the
report cap was reached or no single input reproduced the crash). -/
def reportCrash (hash : Input → Nat) (crashes : Input → Bool)
    (numCrashReports maxNumCrashReports : Nat)
    (inputVec : List Input) (numOutputsRead : Nat) : Option (Nat × Input) :=
  if maxNumCrashReports ≤ numCrashReports then none
  else if h : numOutputsRead < inputVec.length then
    if crashes (inputVec.get ⟨numOutputsRead, h⟩) then
      some (hash (inputVec.get ⟨numOutputsRead, h⟩), inputVec.get ⟨numOutputsRead, h⟩)
    else (inputVec.find? crashes).map fun i => (hash i, i)
  else (inputVec.find? crashes).map fun i => (hash i, i)

/-- The coverage frontier of the corpus unit tests: a 100-entry PC table
with nothing covered, hence nothing in the frontier. -/
def pruneScenarioFrontier : CoverageFrontier := CoverageFrontier.trivialFrontier 100

/-- One step of the Corpus.Prune test scenario: increment the frequencies of
the record's features, then add the record to the corpus. -/
def pruneScenarioStep (st : Corpus × FeatureSet) (rec : Input × FeatureVec) :
    Corpus × FeatureSet :=
  (st.1.add rec.1 rec.2 [] (st.2.incrementFrequencies rec.2) pruneScenarioFrontier,
   st.2.incrementFrequencies rec.2)

/-- The corpus and feature set of the Corpus.Prune test scenario: threshold 3
and the five records with features {20,40}, {20,30}, {30,40}, {40,50},
{10,20}. -/
def pruneScenarioState : Corpus × FeatureSet :=
  [([0], [20, 40]), ([1], [20, 30]), ([2], [30, 40]), ([3], [40, 50]),
    ([4], [10, 20])].foldl pruneScenarioStep (Corpus.empty, FeatureSet.init 3)

/-
Theorems.  Helper lemmas come first, then one named theorem per claim
(with its witness or counterexample where required).
-/

theorem inc1_threshold (fs : FeatureSet) (g : Feature) :
    (fs.inc1 g).frequency_threshold = fs.frequency_threshold := rfl

theorem inc1_freq (fs : FeatureSet) (g f : Feature) :
    (fs.inc1 g).freq f =
      if f = g then min (fs.freq g + 1) fs.frequency_threshold else fs.freq f := rfl

theorem incrementFrequencies_cons (fs : FeatureSet) (g : Feature) (v : FeatureVec) :
    fs.incrementFrequencies (g :: v) = (fs.inc1 g).incrementFrequencies v := rfl

theorem incrementFrequencies_threshold (v : FeatureVec) (fs : FeatureSet) :
    (fs.incrementFrequencies v).frequency_threshold = fs.frequency_threshold := by
  induction v generalizing fs with
  | nil => rfl
  | cons g v ih =>
    rw [incrementFrequencies_cons, ih (fs.inc1 g), inc1_threshold]

theorem incrementFrequencies_freq_bounds (v : FeatureVec) (fs : FeatureSet) (f : Feature)
    (h : fs.freq f ≤ fs.frequency_threshold) :
    fs.freq f ≤ (fs.incrementFrequencies v).freq f ∧
      (fs.incrementFrequencies v).freq f ≤ fs.frequency_threshold := by
  induction v generalizing fs with
  | nil => exact ⟨le_refl _, h⟩
  | cons g v ih =>
    rw [incrementFrequencies_cons]
    have h1 : fs.freq f ≤ (fs.inc1 g).freq f := by
      rw [inc1_freq]
      split
      · next heq => subst heq; omega
      · exact le_refl _
    have h2 : (fs.inc1 g).freq f ≤ (fs.inc1 g).frequency_threshold := by
      rw [inc1_freq, inc1_threshold]
      split
      · next heq => subst heq; omega
      · exact h
    obtain ⟨a, b⟩ := ih (fs.inc1 g) h2
    rw [inc1_threshold] at b
    exact ⟨le_trans h1 a, b⟩

theorem incrementFrequencies_freq_bump (v : FeatureVec) (fs : FeatureSet) (f : Feature)
    (hmem : f ∈ v) (h : fs.freq f ≤ fs.frequency_threshold) :
    min (fs.freq f + 1) fs.frequency_threshold ≤ (fs.incrementFrequencies v).freq f := by
  induction v generalizing fs with
  | nil => cases hmem
  | cons g v ih =>
    rw [incrementFrequencies_cons]
    by_cases hfg : f = g
    · subst hfg
      have h2 : (fs.inc1 f).freq f = min (fs.freq f + 1) fs.frequency_threshold := by
        rw [inc1_freq]; simp
      have h3 : (fs.inc1 f).freq f ≤ (fs.inc1 f).frequency_threshold := by
        rw [h2, inc1_threshold]; omega
      have h4 := (incrementFrequencies_freq_bounds v (fs.inc1 f) f h3).1
      rw [h2] at h4
      exact h4
    · have hmem' : f ∈ v := by
        rcases List.mem_cons.mp hmem with h' | h'
        · exact absurd h' hfg
        · exact h'
      have h1 : (fs.inc1 g).freq f = fs.freq f := by rw [inc1_freq]; simp [hfg]
      have h2 : (fs.inc1 g).freq f ≤ (fs.inc1 g).frequency_threshold := by
        rw [h1, inc1_threshold]; exact h
      have h4 := ih (fs.inc1 g) hmem' h2
      rw [h1, inc1_threshold] at h4
      exact h4

theorem incrementFrequenciesAll_cons (fs : FeatureSet) (v : FeatureVec) (vs : List FeatureVec) :
    fs.incrementFrequenciesAll (v :: vs) = (fs.incrementFrequencies v).incrementFrequenciesAll vs :=
  rfl

theorem incrementFrequenciesAll_freq (vs : List FeatureVec) (fs : FeatureSet) (f : Feature)
    (h : fs.freq f ≤ fs.frequency_threshold) :
    min (fs.freq f + vs.countP (fun v => decide (f ∈ v))) fs.frequency_threshold ≤
        (fs.incrementFrequenciesAll vs).freq f ∧
      (fs.incrementFrequenciesAll vs).freq f ≤ fs.frequency_threshold ∧
      (fs.incrementFrequenciesAll vs).frequency_threshold = fs.frequency_threshold := by
  induction vs generalizing fs with
  | nil =>
    refine ⟨?_, h, rfl⟩
    simp only [List.countP_nil, Nat.add_zero, FeatureSet.incrementFrequenciesAll, List.foldl_nil]
    omega
  | cons v vs ih =>
    rw [incrementFrequenciesAll_cons]
    have hb := incrementFrequencies_freq_bounds v fs f h
    have hT : (fs.incrementFrequencies v).frequency_threshold = fs.frequency_threshold :=
      incrementFrequencies_threshold v fs
    have h1 : (fs.incrementFrequencies v).freq f ≤ (fs.incrementFrequencies v).frequency_threshold := by
      rw [hT]; exact hb.2
    obtain ⟨ia, ib, ic⟩ := ih (fs.incrementFrequencies v) h1
    have key : min (fs.freq f + (v :: vs).countP (fun u => decide (f ∈ u))) fs.frequency_threshold ≤
        min ((fs.incrementFrequencies v).freq f + vs.countP (fun u => decide (f ∈ u)))
          (fs.incrementFrequencies v).frequency_threshold := by
      rw [List.countP_cons, hT]
      by_cases hm : f ∈ v
      · have hbump := incrementFrequencies_freq_bump v fs f hm h
        have hub := hb.2
        simp only [hm, decide_True, if_true, ite_true]
        omega
      · have hlb := hb.1
        simp [hm]
        omega
    refine ⟨le_trans key ia, ?_, ?_⟩
    · rw [← hT]; exact ib
    · rw [← hT]; exact ic

/-- C1: FeatureSet's `count_unseen_and_prune_frequent_features` returns the
number of unseen features and prunes, in place and in order, every feature
whose frequency has reached the threshold: with threshold 3, after
`increment_frequencies({10})` three times, calling it on `{10, 20}` returns
1 and mutates the vector to `{20}`; and any feature incremented at least
`frequency_threshold` times is pruned from every subsequent vector, even
after further increments. -/
theorem featureSet_count_unseen_and_prune_spec (t : Nat) (vs ws : List FeatureVec)
    (f : Feature) (w : FeatureVec) :
    ((((FeatureSet.init 3).incrementFrequencies [10]).incrementFrequencies
          [10]).incrementFrequencies [10]).countUnseenAndPruneFrequentFeatures [10, 20] =
        (1, [20]) ∧
    (t ≤ vs.countP (fun v => decide (f ∈ v)) →
      f ∉ ((((FeatureSet.init t).incrementFrequenciesAll vs).incrementFrequenciesAll
        ws).countUnseenAndPruneFrequentFeatures w).2) := by
  constructor
  · decide
  · intro hcount
    have e1 : (FeatureSet.init t).freq f = 0 := rfl
    have e2 : (FeatureSet.init t).frequency_threshold = t := rfl
    obtain ⟨a1, b1, c1⟩ :=
      incrementFrequenciesAll_freq vs (FeatureSet.init t) f (by rw [e1]; exact Nat.zero_le _)
    rw [e1, e2] at a1
    rw [e2] at b1
    rw [e2] at c1
    have hfreq1 : t ≤ ((FeatureSet.init t).incrementFrequenciesAll vs).freq f := by omega
    obtain ⟨a2, b2, c2⟩ :=
      incrementFrequenciesAll_freq ws ((FeatureSet.init t).incrementFrequenciesAll vs) f
        (by rw [c1]; exact b1)
    rw [c1] at a2 b2 c2
    have hfreq2 :
        t ≤ (((FeatureSet.init t).incrementFrequenciesAll vs).incrementFrequenciesAll ws).freq f := by
      omega
    intro hmem
    have hp := (List.mem_filter.mp hmem).2
    simp only [decide_eq_true_eq] at hp
    rw [c2] at hp
    omega

/-- Witness for C1: with threshold 2, after two increments of feature 5 it is
pruned from a later vector. -/
theorem featureSet_count_unseen_and_prune_spec_witness :
    5 ∉ ((((FeatureSet.init 2).incrementFrequenciesAll [[5], [5]]).incrementFrequenciesAll
      [[7]]).countUnseenAndPruneFrequentFeatures [5, 6]).2 :=
  (featureSet_count_unseen_and_prune_spec 2 [[5], [5]] [[7]] 5 [5, 6]).2 (by decide)

theorem capRemoveAux_of_le (rng : Nat → Nat) (maxSize fuel step : Nat)
    (l : List (CorpusRecord × ℚ)) (h : l.length ≤ maxSize) :
    capRemoveAux rng maxSize fuel step l = l := by
  cases fuel with
  | zero => rfl
  | succ n => simp [capRemoveAux, h]

theorem length_filter_add_length_filter_not {α : Type} (l : List α) (p : α → Bool) :
    (l.filter p).length + (l.filter fun a => !(p a)).length = l.length := by
  induction l with
  | nil => rfl
  | cons a l ih => cases hpa : p a <;> simp [List.filter_cons, hpa] <;> omega

/-- C2: Corpus::prune fails fatally when `max_corpus_size = 0`; otherwise,
when the survivor count does not exceed `max_corpus_size`, it removes
exactly the active records all of whose features are frequent (keeping the
others in order, with recomputed weights), returns the number of removed
records, and leaves `num_total` unchanged.  In the threshold-3 scenario with
records {20,40}, {20,30}, {30,40}, {40,50}, {10,20}, pruning with max 1000
removes exactly the record with features {20,40}, leaving 4 active records
and `num_total = 5`. -/
theorem corpus_prune_spec (c : Corpus) (fs : FeatureSet) (cf : CoverageFrontier)
    (maxSize : Nat) (rng : Nat → Nat) :
    (maxSize = 0 → c.prune fs cf maxSize rng = none) ∧
    (maxSize ≠ 0 →
      (c.records.filter fun r => !(recordAllFrequent fs r)).length ≤ maxSize →
      c.prune fs cf maxSize rng =
        some ({ records := c.records.filter fun r => !(recordAllFrequent fs r)
                weights := (c.records.filter fun r => !(recordAllFrequent fs r)).map
                  (recordWeight fs cf)
                num_total := c.num_total },
              (c.records.filter fun r => recordAllFrequent fs r).length)) ∧
    ((pruneScenarioState.1.prune pruneScenarioState.2 pruneScenarioFrontier 1000
        fun _ => 0).map
      fun x => (x.1.records.map CorpusRecord.features, x.1.numActive, x.1.num_total, x.2)) =
      some ([[20, 30], [30, 40], [40, 50], [10, 20]], 4, 5, 1) := by
  refine ⟨fun h0 => by simp [Corpus.prune, h0], fun hmax hsurv => ?_, by decide⟩
  have hlen : ((c.records.filter fun r => !(recordAllFrequent fs r)).map
      fun r => (r, recordWeight fs cf r)).length ≤ maxSize := by
    rw [List.length_map]; exact hsurv
  have hsplit := length_filter_add_length_filter_not c.records
    fun r => recordAllFrequent fs r
  simp only [Corpus.prune, hmax, if_false, ite_false,
    capRemoveAux_of_le _ _ _ _ _ hlen, List.map_map]
  simp only [Option.some.injEq, Prod.mk.injEq, Corpus.mk.injEq]
  refine ⟨⟨?_, ?_, trivial⟩, ?_⟩
  · simp [Function.comp_def]
  · simp [Function.comp_def]
  · simp only [List.length_map]
    omega

/-- Witness for C2: concrete instances of the fatal branch and of the
characterization branch. -/
theorem corpus_prune_spec_witness :
    Corpus.empty.prune (FeatureSet.init 3) (CoverageFrontier.trivialFrontier 1) 0
        (fun _ => 0) = none ∧
    Corpus.empty.prune (FeatureSet.init 3) (CoverageFrontier.trivialFrontier 1) 5
        (fun _ => 0) = some ({ records := [], weights := [], num_total := 0 }, 0) :=
  ⟨(corpus_prune_spec Corpus.empty (FeatureSet.init 3) (CoverageFrontier.trivialFrontier 1)
      0 (fun _ => 0)).1 rfl,
   (corpus_prune_spec Corpus.empty (FeatureSet.init 3) (CoverageFrontier.trivialFrontier 1)
      5 (fun _ => 0)).2.1 (by decide) (by decide)⟩

theorem computeWeight_singleton (fs : FeatureSet) (g : Feature) :
    fs.computeWeight [g] = fs.domainScale (domainOf g) * rarity (fs.freq g) := by
  simp [FeatureSet.computeWeight]

theorem domainScale_pos (fs : FeatureSet) (d : Nat) : 0 < fs.domainScale d := by
  unfold FeatureSet.domainScale
  positivity

theorem domainScale_lt (fs : FeatureSet) (d1 d2 : Nat)
    (h : fs.domainCount d1 < fs.domainCount d2) :
    fs.domainScale d2 < fs.domainScale d1 := by
  unfold FeatureSet.domainScale
  apply one_div_lt_one_div_of_lt
  · positivity
  · exact_mod_cast Nat.add_lt_add_right h 1

theorem rarity_pos (n : Nat) (h : 1 ≤ n) : 0 < rarity n := by
  unfold rarity
  have hn : (0 : ℚ) < n := by exact_mod_cast h
  exact one_div_pos.mpr hn

theorem rarity_nonneg (n : Nat) : 0 ≤ rarity n :=
  one_div_nonneg.mpr (Nat.cast_nonneg n)

theorem rarity_lt (a b : Nat) (h1 : 1 ≤ a) (h2 : a < b) : rarity b < rarity a := by
  unfold rarity
  apply one_div_lt_one_div_of_lt
  · exact_mod_cast h1
  · exact_mod_cast h2

/-- C3: the three monotonicity laws of FeatureSet::compute_weight.  For two
features of the same domain with frequencies `a < b` (both seen), the rarer
has strictly greater single-feature weight; for two seen features of equal
frequency, the one whose domain has fewer distinct features has strictly
greater single-feature weight; and appending a feature to a vector never
decreases its total weight. -/
theorem computeWeight_monotone_laws (fs : FeatureSet) (fa fb : Feature) (v : FeatureVec)
    (f : Feature) :
    (domainOf fa = domainOf fb → 1 ≤ fs.freq fa → fs.freq fa < fs.freq fb →
      fs.computeWeight [fb] < fs.computeWeight [fa]) ∧
    (fs.freq fa = fs.freq fb → 1 ≤ fs.freq fa →
      fs.domainCount (domainOf fa) < fs.domainCount (domainOf fb) →
      fs.computeWeight [fb] < fs.computeWeight [fa]) ∧
    fs.computeWeight v ≤ fs.computeWeight (v ++ [f]) := by
  refine ⟨fun hdom hpos hlt => ?_, fun hfreq hpos hcnt => ?_, ?_⟩
  · rw [computeWeight_singleton, computeWeight_singleton, ← hdom]
    exact mul_lt_mul_of_pos_left (rarity_lt _ _ hpos hlt) (domainScale_pos fs _)
  · rw [computeWeight_singleton, computeWeight_singleton, ← hfreq]
    exact mul_lt_mul_of_pos_right (domainScale_lt fs _ _ hcnt) (rarity_pos _ hpos)
  · unfold FeatureSet.computeWeight
    rw [List.map_append, List.sum_append]
    apply le_add_of_nonneg_right
    simp only [List.map_cons, List.map_nil, List.sum_cons, List.sum_nil, add_zero]
    exact mul_nonneg (le_of_lt (domainScale_pos fs _)) (rarity_nonneg _)

/-- Witness for C3: the three laws at a concrete feature set with threshold
10, built by increments as in the unit tests. -/
theorem computeWeight_monotone_laws_witness :
    ((FeatureSet.init 10).incrementFrequencies [1, 2, 2]).computeWeight [2] <
        ((FeatureSet.init 10).incrementFrequencies [1, 2, 2]).computeWeight [1] ∧
    ((FeatureSet.init 10).incrementFrequencies [1, 2 ^ 40, 2 ^ 40 + 1]).computeWeight
          [2 ^ 40] <
        ((FeatureSet.init 10).incrementFrequencies [1, 2 ^ 40, 2 ^ 40 + 1]).computeWeight
          [1] ∧
    ((FeatureSet.init 10).incrementFrequencies [1, 2, 2]).computeWeight [7, 8] ≤
        ((FeatureSet.init 10).incrementFrequencies [1, 2, 2]).computeWeight ([7, 8] ++ [9]) :=
  ⟨(computeWeight_monotone_laws _ 1 2 [] 0).1 (by decide) (by decide) (by decide),
   (computeWeight_monotone_laws _ 1 (2 ^ 40) [] 0).2.1 (by decide) (by decide) (by decide),
   (computeWeight_monotone_laws _ 0 0 [7, 8] 9).2.2⟩

/-- C4 (code divergence): on the two-entry PC table of the death-test
fixture, `FrontierWeight(666)` is a fatal programming error (`none`), but
`PcIndexIsFrontier(666)` returns a value instead of aborting: the bounds
check the spec requires is missing there, and the unit test disables the
corresponding death test with a TODO saying `CHECK` is not yet used in
`PcIndexIsFrontier`. -/
theorem coverageFrontier_out_of_range :
    (CoverageFrontier.mk 2 [false, false] [0, 0]).frontierWeight 666 = none ∧
    (CoverageFrontier.mk 2 [false, false] [0, 0]).pcIndexIsFrontier 666 = false := by
  decide

/-- C5: whenever the periodic cross-shard load fires with more than one
shard, the chosen shard index is a valid index different from the current
shard's, for every RNG draw. -/
theorem fuzzingLoop_other_shard_valid (myShardIndex totalShards r : Nat)
    (h : 1 < totalShards) :
    chooseOtherShardIndex myShardIndex totalShards r < totalShards ∧
      chooseOtherShardIndex myShardIndex totalShards r ≠ myShardIndex := by
  unfold chooseOtherShardIndex
  have htot : 0 < totalShards := by omega
  have hk : r % (totalShards - 1) < totalShards - 1 := Nat.mod_lt _ (by omega)
  constructor
  · exact Nat.mod_lt _ htot
  · intro heq
    set k := r % (totalShards - 1) with hkdef
    have hdm := Nat.div_add_mod (myShardIndex + 1 + k) totalShards
    set q := (myShardIndex + 1 + k) / totalShards with hq
    rw [heq] at hdm
    have hq1 : totalShards * q = 1 + k := by omega
    rcases Nat.eq_zero_or_pos q with hq0 | hqpos
    · rw [hq0, Nat.mul_zero] at hq1; omega
    · have hge : totalShards ≤ totalShards * q := Nat.le_mul_of_pos_right _ hqpos
      omega

/-- Witness for C5: with 5 shards, shard 3 and RNG draw 7, the chosen shard
index is valid and is not 3. -/
theorem fuzzingLoop_other_shard_valid_witness :
    chooseOtherShardIndex 3 5 7 < 5 ∧ chooseOtherShardIndex 3 5 7 ≠ 3 :=
  fuzzingLoop_other_shard_valid 3 5 7 (by decide)

/-- C7: Knobs::GenerateBool returns the default when the knob value is 0 or
255, false when it is 1, true when it is 254, and for a value in [2, 253]
returns true exactly when `random mod 252 ≤ value - 2`. -/
theorem generateBool_spec (value : Nat) (d : Bool) (r : Nat) (hv : value < 256) :
    ((value = 0 ∨ value = 255) → generateBool value d r = d) ∧
    (value = 1 → generateBool value d r = false) ∧
    (value = 254 → generateBool value d r = true) ∧
    (2 ≤ value → value ≤ 253 → (generateBool value d r = true ↔ r % 252 ≤ value - 2)) := by
  refine ⟨fun h => ?_, fun h => ?_, fun h => ?_, fun h2 h253 => ?_⟩
  · rw [generateBool, if_pos h]
  · subst h; simp [generateBool]
  · subst h; simp [generateBool]
  · have c1 : ¬(value = 0 ∨ value = 255) := by omega
    have c2 : value ≠ 1 := by omega
    have c3 : value ≠ 254 := by omega
    rw [generateBool, if_neg c1, if_neg c2, if_neg c3]
    simp [kNumPossibleValues]

/-- Witness for C7: at knob value 100, GenerateBool is true exactly when the
random draw lands in the first 99 of the 252 positions. -/
theorem generateBool_spec_witness :
    generateBool 100 true 57 = true ↔ 57 % 252 ≤ 98 :=
  (generateBool_spec 100 true 57 (by decide)).2.2.2 (by decide) (by decide)

/-- C6: the CrashReporter produces no report once the report cap is reached;
below the cap it first re-executes the input at position `num_outputs_read`
(only when that position lies inside the batch) and, if it reproduces,
persists exactly that input under its hash; otherwise it re-executes every
input of the batch one by one and the first reproducer wins (`find?`), with
`none` when no single input reproduces. -/
theorem reportCrash_spec (hash : Input → Nat) (crashes : Input → Bool)
    (n maxR : Nat) (vec : List Input) (k : Nat) :
    (maxR ≤ n → reportCrash hash crashes n maxR vec k = none) ∧
    (n < maxR → ∀ (h : k < vec.length), crashes (vec.get ⟨k, h⟩) = true →
      reportCrash hash crashes n maxR vec k =
        some (hash (vec.get ⟨k, h⟩), vec.get ⟨k, h⟩)) ∧
    (n < maxR → (∀ (h : k < vec.length), crashes (vec.get ⟨k, h⟩) = false) →
      reportCrash hash crashes n maxR vec k =
        (vec.find? crashes).map fun i => (hash i, i)) := by
  refine ⟨fun hcap => ?_, fun hlt h hcr => ?_, fun hlt hnc => ?_⟩
  · rw [reportCrash, if_pos hcap]
  · rw [reportCrash, if_neg (by omega), dif_pos h, if_pos hcr]
  · rw [reportCrash, if_neg (by omega)]
    by_cases h : k < vec.length
    · rw [dif_pos h, if_neg (by rw [hnc h]; simp)]
    · rw [dif_neg h]

/-- Witness for C6: a concrete batch where the presumed culprit does not
reproduce and the one-by-one pass finds the second input, plus a saturated
report counter producing no report. -/
theorem reportCrash_spec_witness :
    reportCrash (fun i => i.sum) (fun i => i.headD 0 == 1) 0 1 [[0], [1]] 0 =
        some (1, [1]) ∧
    reportCrash (fun i => i.sum) (fun i => i.headD 0 == 1) 5 3 [[0], [1]] 0 = none :=
  ⟨((reportCrash_spec (fun i => i.sum) (fun i => i.headD 0 == 1) 0 1 [[0], [1]] 0).2.2
      (by decide) (fun _ => rfl)).trans (by decide),
   (reportCrash_spec (fun i => i.sum) (fun i => i.headD 0 == 1) 5 3 [[0], [1]] 0).1
      (by decide)⟩

theorem prefixSums_length (l : List Nat) : (prefixSums l).length = l.length := by
  induction l with
  | nil => rfl
  | cons w ws ih => simp [prefixSums, ih]

theorem getLastD_map_add (w : Nat) : ∀ (l : List Nat) (a : Nat),
    (l.map (w + ·)).getLastD (w + a) = w + l.getLastD a
  | [], _ => rfl
  | b :: l, a => by
    simp only [List.map_cons, List.getLastD_cons]
    exact getLastD_map_add w l b

theorem prefixSums_getLastD (l : List Nat) : (prefixSums l).getLastD 0 = l.sum := by
  induction l with
  | nil => rfl
  | cons w ws ih =>
    simp only [prefixSums, List.getLastD_cons, List.sum_cons]
    have h := getLastD_map_add w (prefixSums ws) 0
    rw [Nat.add_zero] at h
    rw [h, ih]

theorem exists_mem_prefixSums_gt (l : List Nat) (x : Nat) (h : x < l.sum) :
    ∃ c ∈ prefixSums l, x < c := by
  induction l generalizing x with
  | nil => simp at h
  | cons w ws ih =>
    by_cases hw : x < w
    · exact ⟨w, by simp [prefixSums], hw⟩
    · have h2 : x - w < ws.sum := by simp only [List.sum_cons] at h; omega
      obtain ⟨c, hc, hxc⟩ := ih (x - w) h2
      refine ⟨w + c, ?_, by omega⟩
      simp only [prefixSums, List.mem_cons, List.mem_map]
      exact Or.inr ⟨c, hc, rfl⟩

theorem upperBound_exists (cum : List Nat) (x : Nat) (h : ∃ c ∈ cum, x < c) :
    ∃ j, j < cum.length ∧ upperBound cum x = some j := by
  induction cum with
  | nil => simp at h
  | cons c cs ih =>
    by_cases hc : x < c
    · exact ⟨0, by simp, by simp [upperBound, hc]⟩
    · obtain ⟨c', hc', hxc'⟩ := h
      rcases List.mem_cons.mp hc' with rfl | hmem
      · exact absurd hxc' hc
      · obtain ⟨j, hj, hub⟩ := ih ⟨c', hmem, hxc'⟩
        refine ⟨j + 1, by simp only [List.length_cons]; omega, ?_⟩
        simp [upperBound, hc, hub]

/-- C8: after `change_weight`, calling `random_index` before
`recompute_internal_state` is a fatal programming error (`none`); once
`recompute_internal_state` has run, sampling is well defined again (it
returns an index of the distribution whenever some weight is positive). -/
theorem weightedDistribution_change_weight_check (wd : WeightedDistribution)
    (i w r : Nat) :
    (wd.changeWeight i w).randomIndex r = none ∧
    (0 < (wd.weights.set i w).sum →
      ∃ j, j < (wd.changeWeight i w).recomputeInternalState.size ∧
        (wd.changeWeight i w).recomputeInternalState.randomIndex r = some j) := by
  constructor
  · rfl
  · intro hsum
    have htot : (prefixSums (wd.weights.set i w)).getLastD 0 = (wd.weights.set i w).sum :=
      prefixSums_getLastD _
    have hmod : r % (wd.weights.set i w).sum < (wd.weights.set i w).sum :=
      Nat.mod_lt _ hsum
    obtain ⟨j, hj, hub⟩ := upperBound_exists (prefixSums (wd.weights.set i w))
      (r % (wd.weights.set i w).sum) (exists_mem_prefixSums_gt _ _ hmod)
    have hne : (wd.weights.set i w).sum ≠ 0 := by omega
    refine ⟨j, ?_, ?_⟩
    · rw [prefixSums_length] at hj
      simpa [WeightedDistribution.size, WeightedDistribution.recomputeInternalState,
        WeightedDistribution.changeWeight] using hj
    · simp only [WeightedDistribution.recomputeInternalState,
        WeightedDistribution.changeWeight, WeightedDistribution.randomIndex, htot]
      simp [hne, hub]

/-- Witness for C8: a three-entry distribution, weight 1 changed to 5;
sampling right after the change aborts, sampling after recomputation
returns an index. -/
theorem weightedDistribution_change_weight_check_witness :
    ((((WeightedDistribution.clear.addWeight 1).addWeight 2).addWeight 3).changeWeight 1
          5).randomIndex 7 = none ∧
    ∃ j, j < ((((WeightedDistribution.clear.addWeight 1).addWeight 2).addWeight
          3).changeWeight 1 5).recomputeInternalState.size ∧
      ((((WeightedDistribution.clear.addWeight 1).addWeight 2).addWeight 3).changeWeight 1
          5).recomputeInternalState.randomIndex 7 = some j :=
  ⟨(weightedDistribution_change_weight_check
      (((WeightedDistribution.clear.addWeight 1).addWeight 2).addWeight 3) 1 5 7).1,
   (weightedDistribution_change_weight_check
      (((WeightedDistribution.clear.addWeight 1).addWeight 2).addWeight 3) 1 5 7).2
      (by decide)⟩

theorem applyOp_num_total (c : Corpus) (op : CorpusOp) :
    c.num_total ≤ (c.applyOp op).num_total := by
  cases op with
  | add d f a fs cf => exact Nat.le_succ _
  | prune fs cf m rng =>
    cases hp : c.prune fs cf m rng with
    | none => simp [Corpus.applyOp, hp]
    | some x =>
      have hnum : x.1.num_total = c.num_total := by
        unfold Corpus.prune at hp
        by_cases hm : m = 0
        · rw [if_pos hm] at hp; cases hp
        · rw [if_neg hm] at hp
          simp only [Option.some.injEq] at hp
          rw [← hp]
      simp [Corpus.applyOp, hp, hnum]

theorem applyOps_num_total (ops : List CorpusOp) (c : Corpus) :
    c.num_total ≤ (c.applyOps ops).num_total := by
  induction ops generalizing c with
  | nil => exact le_refl _
  | cons op ops ih => exact le_trans (applyOp_num_total c op) (ih (c.applyOp op))

/-- Counterexample for C9: the dummy guard does not ensure that sampling
operates on a nonempty active corpus.  Starting from an empty corpus, the
guard fires and adds the dummy with an empty feature vector; a single prune
inside the loop then removes the dummy (an empty feature vector is vacuously
all-frequent), leaving zero active records while `num_total = 1`, so a
subsequent `WeightedRandom`/`UniformRandom` call has no record to draw from
and the guard (which tests `num_total`) would not re-add anything. -/
theorem fuzzingLoop_corpus_nonempty_cex :
    ((addDummyIfCorpusEmpty Corpus.empty [42] (FeatureSet.init 3)
          (CoverageFrontier.trivialFrontier 1)).applyOps
        [CorpusOp.prune (FeatureSet.init 3) (CoverageFrontier.trivialFrontier 1) 7
          fun _ => 0]).numActive = 0 ∧
    ((addDummyIfCorpusEmpty Corpus.empty [42] (FeatureSet.init 3)
          (CoverageFrontier.trivialFrontier 1)).applyOps
        [CorpusOp.prune (FeatureSet.init 3) (CoverageFrontier.trivialFrontier 1) 7
          fun _ => 0]).num_total = 1 := by
  decide

/-- C9 (amended): if the corpus still has `num_total = 0` after shard
loading and merging, the fuzzing loop adds the dummy valid input with an
empty feature vector, so the main loop is entered with at least one active
record, and `num_total ≥ 1` holds at every later sampling point; active
records are guaranteed only at loop entry — as the counterexample shows, a
later prune can remove every active record, the dummy included, because the
guard tests `num_total`, which also counts pruned-out records. -/
theorem fuzzingLoop_corpus_guard_amended (c : Corpus) (dummy : Input) (fs : FeatureSet)
    (cf : CoverageFrontier) (ops : List CorpusOp) :
    (c.num_total = 0 → addDummyIfCorpusEmpty c dummy fs cf = c.add dummy [] [] fs cf) ∧
    (c.num_total = 0 → 1 ≤ (addDummyIfCorpusEmpty c dummy fs cf).numActive) ∧
    1 ≤ (addDummyIfCorpusEmpty c dummy fs cf).num_total ∧
    1 ≤ ((addDummyIfCorpusEmpty c dummy fs cf).applyOps ops).num_total := by
  have h1 : 1 ≤ (addDummyIfCorpusEmpty c dummy fs cf).num_total := by
    unfold addDummyIfCorpusEmpty
    split
    · exact Nat.succ_le_succ (Nat.zero_le _)
    · next hne => omega
  refine ⟨fun h0 => by rw [addDummyIfCorpusEmpty, if_pos h0], fun h0 => ?_, h1,
    le_trans h1 (applyOps_num_total ops _)⟩
  rw [addDummyIfCorpusEmpty, if_pos h0]
  simp only [Corpus.numActive, Corpus.add, List.length_append, List.length_singleton]
  omega

/-- Witness for C9: an empty corpus gets the dummy record, enters the loop
with one active record, and `num_total` stays positive through a loop
trace. -/
theorem fuzzingLoop_corpus_guard_amended_witness :
    (addDummyIfCorpusEmpty Corpus.empty [42] (FeatureSet.init 3)
        (CoverageFrontier.trivialFrontier 1) =
      Corpus.empty.add [42] [] [] (FeatureSet.init 3)
        (CoverageFrontier.trivialFrontier 1)) ∧
    1 ≤ (addDummyIfCorpusEmpty Corpus.empty [42] (FeatureSet.init 3)
        (CoverageFrontier.trivialFrontier 1)).numActive ∧
    1 ≤ ((addDummyIfCorpusEmpty Corpus.empty [42] (FeatureSet.init 3)
        (CoverageFrontier.trivialFrontier 1)).applyOps
      [CorpusOp.add [7] [10] [] (FeatureSet.init 3)
        (CoverageFrontier.trivialFrontier 1)]).num_total :=
  ⟨(fuzzingLoop_corpus_guard_amended Corpus.empty [42] (FeatureSet.init 3)
      (CoverageFrontier.trivialFrontier 1) []).1 rfl,
   (fuzzingLoop_corpus_guard_amended Corpus.empty [42] (FeatureSet.init 3)
      (CoverageFrontier.trivialFrontier 1) []).2.1 rfl,
   (fuzzingLoop_corpus_guard_amended Corpus.empty [42] (FeatureSet.init 3)
      (CoverageFrontier.trivialFrontier 1)
      [CorpusOp.add [7] [10] [] (FeatureSet.init 3)
        (CoverageFrontier.trivialFrontier 1)]).2.2.2⟩

theorem chooseScan_exists {T : Type} (vs : List Nat) (cs : List T) (r acc : Nat)
    (hlen : vs.length = cs.length) (hacc : acc ≤ r) (hlt : r < acc + vs.sum) :
    ∃ t ∈ cs, chooseScan vs cs r acc = some t := by
  induction vs generalizing cs acc with
  | nil =>
    exact absurd hlt (by simp only [List.sum_nil, Nat.add_zero]; omega)
  | cons v vs ih =>
    cases cs with
    | nil => simp at hlen
    | cons c cs =>
      by_cases hcond : r < acc + v
      · exact ⟨c, List.mem_cons_self _ _, by simp [chooseScan, hcond]⟩
      · have hacc2 : acc + v ≤ r := by omega
        have hlt2 : r < acc + v + vs.sum := by
          simp only [List.sum_cons] at hlt; omega
        obtain ⟨t, ht, heq⟩ := ih cs (acc + v) (by simpa using hlen) hacc2 hlt2
        exact ⟨t, List.mem_cons_of_mem _ ht, by simp [chooseScan, hcond, heq]⟩

/-- C10: Knobs::Choose is total on its stated precondition: for equal-length
non-empty id and choice lists and every random value it returns an element
of the choices; with a zero weight sum it returns
`choices[random mod choices.size()]`, and with a positive sum the prefix-sum
scan always fires, so the trailing unreachable branch is never executed. -/
theorem knobs_choose_total {T : Type} (k : Knobs) (ids : List KnobId) (choices : List T)
    (r : Nat) (hlen : ids.length = choices.length) (hne : choices ≠ []) :
    (∃ t ∈ choices, k.choose ids choices r = some t) ∧
    ((ids.map k.value).sum = 0 →
      k.choose ids choices r = choices.get? (r % choices.length)) := by
  have hE : choices.isEmpty = false := by
    cases choices
    · exact absurd rfl hne
    · rfl
  have hlen2 : ¬(ids.length ≠ choices.length) := by omega
  constructor
  · unfold Knobs.choose
    rw [hE]
    simp only [Bool.false_eq_true, if_false, ite_false]
    rw [if_neg hlen2]
    by_cases hs : (ids.map k.value).sum = 0
    · rw [if_pos hs]
      have hpos : 0 < choices.length := List.length_pos.mpr hne
      have hidx : r % choices.length < choices.length := Nat.mod_lt _ hpos
      exact ⟨choices.get ⟨r % choices.length, hidx⟩, List.get_mem _ _ _,
        List.get?_eq_get hidx⟩
    · rw [if_neg hs]
      apply chooseScan_exists
      · rw [List.length_map]; exact hlen
      · exact Nat.zero_le _
      · simpa using Nat.mod_lt r (Nat.pos_of_ne_zero hs)
  · intro hs
    unfold Knobs.choose
    rw [hE]
    simp only [Bool.false_eq_true, if_false, ite_false]
    rw [if_neg hlen2, if_pos hs]

/-- Witness for C10: two choices with all-zero knob values fall back to
uniform selection. -/
theorem knobs_choose_total_witness :
    (∃ t ∈ ([10, 20] : List Nat),
      (Knobs.mk fun _ => 0).choose [0, 1] ([10, 20] : List Nat) 3 = some t) ∧
    (Knobs.mk fun _ => 0).choose [0, 1] ([10, 20] : List Nat) 3 =
      ([10, 20] : List Nat).get? (3 % 2) :=
  ⟨(knobs_choose_total (Knobs.mk fun _ => 0) [0, 1] ([10, 20] : List Nat) 3 rfl
      (by simp)).1,
   (knobs_choose_total (Knobs.mk fun _ => 0) [0, 1] ([10, 20] : List Nat) 3 rfl
      (by simp)).2 (by decide)⟩

end Centipede



